import Mathlib

/-!
Shallow embedding of the go-mpfr `Float` core (`mpfr.go`) in Lean 4.

The repository wraps the external MPFR engine behind a Go value type with
lazy initialization, an explicit `Clear`, a per-value rounding mode, a
variadic fold calling convention, and a decimal string codec.  This file
embeds the Go-side control flow and string arithmetic exactly, while the
external numeric engine (whose kernels the specification explicitly treats
as a black box) is modelled over exact values: finite MPFR numbers are
exact rationals and the special values (infinities, NaN) are kept.
Precision rounding inside the engine is abstracted away; everything the
repository's own code does (guards, branches, string slicing, thresholds,
panics) is transcribed faithfully.

Go strings are modelled as their list of characters (all strings in scope
are ASCII, so Go byte indexing coincides with character indexing).
-/

namespace GoMpfr

/-- Model of a Go string: its list of (ASCII) characters. -/
abbrev GoStr := List Char

/-- Models `strings.Repeat("0", n)`. -/
def zeros (n : Nat) : GoStr := List.replicate n '0'

/-- Decimal digit to character, as used when rendering decimal text. -/
def digitChar : Nat → Char
  | 0 => '0' | 1 => '1' | 2 => '2' | 3 => '3' | 4 => '4'
  | 5 => '5' | 6 => '6' | 7 => '7' | 8 => '8' | 9 => '9'
  | _ => '?'

/-- Fuel-driven most-significant-first decimal digits of a natural number
(empty for 0).  Structural recursion on the fuel keeps kernel reduction
available for concrete evaluation. -/
def natDigitsF : Nat → Nat → GoStr
  | 0, _ => []
  | fuel + 1, n => if n = 0 then [] else natDigitsF fuel (n / 10) ++ [digitChar (n % 10)]

/-- Most-significant-first decimal digits of a natural number (empty for 0). -/
def natDigits (n : Nat) : GoStr := natDigitsF n n

/-- Decimal digits of a natural number, rendering 0 as "0". -/
def natDigits0 (n : Nat) : GoStr := if n = 0 then ['0'] else natDigits n

/-- Numeric value of a most-significant-first digit string. -/
def digitsVal : GoStr → Nat
  | [] => 0
  | c :: cs => (c.toNat - 48) * 10 ^ cs.length + digitsVal cs

/-- Fuel-driven factor-of-ten stripping: `strip10F fuel n = (m, t)` with
`n = m * 10 ^ t` and (given enough fuel and `n ≠ 0`) `¬ 10 ∣ m`. -/
def strip10F : Nat → Nat → Nat × Nat
  | 0, n => (n, 0)
  | fuel + 1, n =>
    if n ≠ 0 ∧ n % 10 = 0 then
      let r := strip10F fuel (n / 10)
      (r.1, r.2 + 1)
    else (n, 0)

/-- Strip all factors of ten: `strip10 n = (m, t)` with `n = m * 10 ^ t`. -/
def strip10 (n : Nat) : Nat × Nat := strip10F n n

/-- Models `(math/big.Int).Text(10)`: minimal decimal text with a `-` sign. -/
def intText (v : Int) : GoStr :=
  if v < 0 then '-' :: natDigits0 v.natAbs else natDigits0 v.natAbs

/-- The positional formatting arithmetic of `Float.String` (mpfr.go lines
133-145), transcribed exactly: the mantissa string returned by the engine
(consisting of the digits, preceded by a `-` sign when the value is
negative) and the decimal exponent are combined without any sign handling.
`mantissa[:k]`/`mantissa[k:]` become `take`/`drop`. -/
def formatMantissa (mantissa : GoStr) (intExp : Int) : GoStr :=
  if 0 ≤ intExp then
    if (mantissa.length : Int) < intExp then
      (mantissa ++ zeros (intExp - mantissa.length).toNat) ++ '.' :: '0' :: []
    else
      mantissa.take intExp.toNat ++ '.' :: mantissa.drop intExp.toNat
  else
    '0' :: '.' :: (zeros (-intExp).toNat ++ mantissa)

/-- The formatting algorithm exactly as the specification states it
(claim C1): the sign is stripped before the positional arithmetic and
reattached afterwards, and the pad-and-append-".0" branch is taken when
`E ≥ len(digits)`.  Kept separate from `formatMantissa` (the code's
algorithm) so the two can be compared. -/
def specFormat (m : GoStr) (intExp : Int) : GoStr :=
  let sd : GoStr × GoStr :=
    match m with
    | '-' :: r => (['-'], r)
    | _ => ([], m)
  let d := sd.2
  sd.1 ++
    (if 0 ≤ intExp then
      if (d.length : Int) ≤ intExp then
        (d ++ zeros (intExp - d.length).toNat) ++ '.' :: '0' :: []
      else
        d.take intExp.toNat ++ '.' :: d.drop intExp.toNat
    else
      '0' :: '.' :: (zeros (-intExp).toNat ++ d))

/-- Model of the decimal grammar accepted by the engine's string parser
(`mpfr_set_str` at base 10) on the strings arising in this development:
an optional `-` sign, an integer digit run, and optionally a decimal
point followed by a fraction digit run; at least one digit overall and
no trailing characters.  Exponent notation and other bases are outside
the modelled fragment (no call site in scope uses them). -/
def parseSign (s : GoStr) : ℚ × GoStr :=
  if s.head? = some '-' then (-1, s.tail) else (1, s)

/-- Fraction part of the parse: `ip` is the already-consumed integer digit
run, `r2` what follows the decimal point. -/
def parseFrac (sgn : ℚ) (ip r2 : GoStr) : Option ℚ :=
  if r2.dropWhile Char.isDigit = [] then
    if ip = [] ∧ r2.takeWhile Char.isDigit = [] then none
    else
      some (sgn * ((digitsVal ip : ℚ)
        + (digitsVal (r2.takeWhile Char.isDigit) : ℚ) / 10 ^ (r2.takeWhile Char.isDigit).length))
  else none

def parseBody (sgn : ℚ) (s1 : GoStr) : Option ℚ :=
  if s1.dropWhile Char.isDigit = [] then
    if s1.takeWhile Char.isDigit = [] then none
    else some (sgn * (digitsVal (s1.takeWhile Char.isDigit) : ℚ))
  else if (s1.dropWhile Char.isDigit).head? = some '.' then
    parseFrac sgn (s1.takeWhile Char.isDigit) (s1.dropWhile Char.isDigit).tail
  else none

def parseDec (s : GoStr) : Option ℚ :=
  parseBody (parseSign s).1 (parseSign s).2

/-- Exact-value model of the contents of an `mpfr_t` handle: finite values
are exact rationals, and the engine's special values are kept.  The
numeric kernels themselves are external collaborators (spec section 1),
so precision rounding is abstracted: operations below compute exactly. -/
inductive MpfrVal where
  | num (q : ℚ)
  | posInf
  | negInf
  | nan
deriving DecidableEq

/-- The MPFR rounding modes exposed by the package (`Rnd` constants). -/
inductive Rnd where
  | RoundToNearest
  | RoundToward0
  | RoundUp
  | RoundDown
  | RoundAway
deriving DecidableEq

/-- Model of `mpfr_add` over exact values (IEEE-style special values;
rounding at the target precision abstracted, so the mode is unused). -/
def engAdd : MpfrVal → MpfrVal → Rnd → MpfrVal
  | .nan, _, _ => .nan
  | _, .nan, _ => .nan
  | .posInf, .negInf, _ => .nan
  | .negInf, .posInf, _ => .nan
  | .posInf, _, _ => .posInf
  | _, .posInf, _ => .posInf
  | .negInf, _, _ => .negInf
  | _, .negInf, _ => .negInf
  | .num a, .num b, _ => .num (a + b)

/-- Model of `mpfr_sub` over exact values. -/
def engSub : MpfrVal → MpfrVal → Rnd → MpfrVal
  | .nan, _, _ => .nan
  | _, .nan, _ => .nan
  | .posInf, .posInf, _ => .nan
  | .negInf, .negInf, _ => .nan
  | .posInf, _, _ => .posInf
  | _, .negInf, _ => .posInf
  | .negInf, _, _ => .negInf
  | _, .posInf, _ => .negInf
  | .num a, .num b, _ => .num (a - b)

/-- Model of `mpfr_mul` over exact values (the sign of zero is not
tracked: zero times an infinity is NaN, as in MPFR). -/
def engMul : MpfrVal → MpfrVal → Rnd → MpfrVal
  | .nan, _, _ => .nan
  | _, .nan, _ => .nan
  | .posInf, .posInf, _ => .posInf
  | .negInf, .negInf, _ => .posInf
  | .posInf, .negInf, _ => .negInf
  | .negInf, .posInf, _ => .negInf
  | .posInf, .num b, _ => if b = 0 then .nan else if 0 < b then .posInf else .negInf
  | .num a, .posInf, _ => if a = 0 then .nan else if 0 < a then .posInf else .negInf
  | .negInf, .num b, _ => if b = 0 then .nan else if 0 < b then .negInf else .posInf
  | .num a, .negInf, _ => if a = 0 then .nan else if 0 < a then .negInf else .posInf
  | .num a, .num b, _ => .num (a * b)

/-- Model of `mpfr_div` over exact values: a nonzero finite or infinite
dividend divided by (unsigned) zero yields an infinity carrying the
dividend's sign, `0/0` and `inf/inf` yield NaN, and a finite dividend
over an infinity yields zero — MPFR's IEEE-style rules. -/
def engDiv : MpfrVal → MpfrVal → Rnd → MpfrVal
  | .nan, _, _ => .nan
  | _, .nan, _ => .nan
  | .posInf, .posInf, _ => .nan
  | .posInf, .negInf, _ => .nan
  | .negInf, .posInf, _ => .nan
  | .negInf, .negInf, _ => .nan
  | .posInf, .num b, _ => if 0 ≤ b then .posInf else .negInf
  | .negInf, .num b, _ => if 0 ≤ b then .negInf else .posInf
  | .num _, .posInf, _ => .num 0
  | .num _, .negInf, _ => .num 0
  | .num a, .num b, _ =>
    if b = 0 then
      if a = 0 then .nan else if 0 < a then .posInf else .negInf
    else .num (a / b)

/-- Model of `mpfr_zero_p`: true exactly on (finite) zero. -/
def engZeroP : MpfrVal → Bool
  | .num q => q = 0
  | _ => false

/-- Model of `mpfr_rootn_ui` for degree `k ≥ 1`: the special-value
structure is exact (an even-degree root of a negative base or of `-inf`
is NaN, roots of NaN are NaN, roots of `+inf` are `+inf`); the finite
magnitude of the root is an engine kernel whose numeric output the
specification leaves out of scope, and is abstracted here by carrying
the radicand through unchanged — only NaN-ness of the result is ever
inspected by the code under verification. -/
def mpfr_rootn_ui (x : MpfrVal) (k : Nat) (_rnd : Rnd) : MpfrVal :=
  match x with
  | .nan => .nan
  | .posInf => .posInf
  | .negInf => if k % 2 = 0 then .nan else .negInf
  | .num q => if q < 0 ∧ k % 2 = 0 then .nan else .num q

/-- Round an exact rational to an integer under a rounding mode (the
semantics MPFR applies in `mpfr_get_si`/`mpfr_get_ui`). -/
def rndToInt (rnd : Rnd) (q : ℚ) : ℤ :=
  match rnd with
  | .RoundDown => ⌊q⌋
  | .RoundUp => ⌈q⌉
  | .RoundToward0 => if 0 ≤ q then ⌊q⌋ else ⌈q⌉
  | .RoundAway => if 0 ≤ q then ⌈q⌉ else ⌊q⌋
  | .RoundToNearest =>
    if q - ⌊q⌋ < 1 / 2 then ⌊q⌋
    else if 1 / 2 < q - ⌊q⌋ then ⌊q⌋ + 1
    else if 2 ∣ ⌊q⌋ then ⌊q⌋ else ⌊q⌋ + 1

/-- Model of `mpfr_get_si` (64-bit `long`): round per the mode, clamp to
the signed range; NaN yields 0 with the erange flag (flag not modelled). -/
def engGetSi (v : MpfrVal) (rnd : Rnd) : ℤ :=
  match v with
  | .nan => 0
  | .posInf => 2 ^ 63 - 1
  | .negInf => -(2 ^ 63)
  | .num q => max (-(2 ^ 63)) (min (rndToInt rnd q) (2 ^ 63 - 1))

/-- Model of `mpfr_get_ui` (64-bit `unsigned long`). -/
def engGetUi (v : MpfrVal) (rnd : Rnd) : ℕ :=
  match v with
  | .nan => 0
  | .posInf => 2 ^ 64 - 1
  | .negInf => 0
  | .num q => (max 0 (min (rndToInt rnd q) (2 ^ 64 - 1))).toNat

/-- Model of `mpfr_set_si`/`mpfr_set_ui` (exact; rounding at the target
precision abstracted). -/
def engSetSi (v : ℤ) (_rnd : Rnd) : MpfrVal := .num v

/-- Model of `mpfr_get_str(base 10, n = 0)`: the digit string (with a
leading `-` for negative values, the sign not counted by the exponent)
and the decimal exponent `E` such that the value is `0.d₁d₂… × 10^E`.
The engine emits a precision-determined number of digits; this model
emits the minimal digit string (trailing zeros stripped), which denotes
the same value.  Finite values whose denominator is not of the form
`2^a·5^b` have no finite decimal expansion — for those the engine would
round, which is abstracted here (theorems about formatting carry a
finite-decimal hypothesis).  Rounding mode unused in the exact model. -/
def mpfr_get_str (v : MpfrVal) (_rnd : Rnd) : GoStr × Int :=
  match v with
  | .nan => ('@' :: 'N' :: 'a' :: 'N' :: '@' :: [], 0)
  | .posInf => ('@' :: 'I' :: 'n' :: 'f' :: '@' :: [], 0)
  | .negInf => ('-' :: '@' :: 'I' :: 'n' :: 'f' :: '@' :: [], 0)
  | .num q =>
    if q = 0 then (['0'], 0)
    else
      let d := q.den
      let N := q.num.natAbs * 10 ^ d / q.den
      let mt := strip10 N
      let ds := natDigits mt.1
      ((if q < 0 then '-' :: ds else ds), (ds.length : Int) + mt.2 - d)

/-- Model of `mpfr_set_str` at base 10 (the only base used by the code
in scope).  On parse failure nothing is committed — the engine is an
external collaborator assumed to honour this contract. -/
def mpfr_set_str (s : GoStr) (base : ℕ) (_rnd : Rnd) : Option MpfrVal :=
  if base = 10 then (parseDec s).map .num else none

/-- The single parse-error value `ErrInvalidString` of the package. -/
inductive GoError where
  | ErrInvalidString
deriving DecidableEq

/-- Decidable equality for `Except`, needed to evaluate the consuming
conversions on concrete inputs. -/
instance instDecEqExcept {e a : Type} [DecidableEq e] [DecidableEq a] :
    DecidableEq (Except e a) := fun x y =>
  match x, y with
  | .ok u, .ok v =>
    if h : u = v then isTrue (congrArg Except.ok h)
    else isFalse fun hc => h (Except.ok.inj hc)
  | .error u, .error v =>
    if h : u = v then isTrue (congrArg Except.error h)
    else isFalse fun hc => h (Except.error.inj hc)
  | .ok _, .error _ => isFalse fun hc => Except.noConfusion hc
  | .error _, .ok _ => isFalse fun hc => Except.noConfusion hc

/-- The Go panics raised by the package, by call site. -/
inductive PanicMsg where
  | addNoArgs
  | subNoArgs
  | mulNoArgs
  | divNoArgs
  | quoDivByZero
  | rootDegreeZero
  | rootResultNaN
  | setBigIntParse
  | fromBigIntParse
deriving DecidableEq

/-- Abrupt outcomes of an operation: a Go panic, or the undefined
behaviour of running a native MPFR call against a handle whose
`init` flag is false (cleared or never initialized). -/
inductive Err where
  | panicked (m : PanicMsg)
  | uninitRead
deriving DecidableEq

/-- Model of the Go `Float` struct: the handle contents (meaningful only
while `init` is true), the `init` flag, the `RoundingMode` field, and
the handle's precision in bits. -/
structure MFloat where
  val : MpfrVal
  init : Bool
  rnd : Rnd
  prec : ℕ
deriving DecidableEq

/-- MPFR's default precision (53 bits). -/
def defaultPrec : ℕ := 53

/-- Replace the handle contents (a native call writing into `f.mpfr`). -/
def withVal (f : MFloat) (v : MpfrVal) : MFloat := ⟨v, f.init, f.rnd, f.prec⟩

/-- Replace the precision field. -/
def withPrec (f : MFloat) (p : ℕ) : MFloat := ⟨f.val, f.init, f.rnd, p⟩

/-- The Go zero value `Float{}` — not yet initialized (the zero
`RoundingMode` is `MPFR_RNDN`). -/
def mkUninit : MFloat := ⟨.nan, false, .RoundToNearest, defaultPrec⟩

/-- An initialized `Float` holding the exact value `q` (as produced by
`NewFloat().SetFloat64(q)`), used as concrete test data. -/
def mkNum (q : ℚ) : MFloat := ⟨.num q, true, .RoundToNearest, defaultPrec⟩

/-- `Float.doinit`: the lazy-initialization guard.  If not initialized,
acquires a handle via `mpfr_init` (contents NaN, default precision) and
resets the rounding mode to `RoundToNearest`. -/
def doinit (f : MFloat) : MFloat :=
  if f.init then f else ⟨.nan, true, .RoundToNearest, defaultPrec⟩

/-- `Float.Clear`: release the handle if initialized; no-op otherwise.
The freed handle's contents are modelled as NaN (they are never
legitimately read again). -/
def Clear (f : MFloat) : MFloat :=
  if f.init then ⟨.nan, false, f.rnd, f.prec⟩ else f

/-- `Float.SetRoundMode`: pure field update, no initialization. -/
def SetRoundMode (f : MFloat) (rnd : Rnd) : MFloat := ⟨f.val, f.init, rnd, f.prec⟩

/-- `Float.SetFloat64` (the float64 argument is an exact rational). -/
def SetFloat64 (f : MFloat) (x : ℚ) : MFloat := withVal (doinit f) (.num x)

/-- `NewFloat`: allocate, `doinit`, set to 0.0. -/
def NewFloat : MFloat := SetFloat64 (doinit mkUninit) 0

/-- `Float.GetFloat64`: guard, then `mpfr_get_d` (the rounding of the
exact value to a float64 is abstracted — the exact value is returned). -/
def GetFloat64 (f : MFloat) : MpfrVal × MFloat :=
  let g := doinit f
  (g.val, g)

/-- `Float.SetString`: guard, delegate to the engine parser, map a
failure return to `ErrInvalidString`. -/
def SetString (f : MFloat) (s : GoStr) (base : ℕ) : Option GoError × MFloat :=
  let g := doinit f
  match mpfr_set_str s base g.rnd with
  | some v => (none, withVal g v)
  | none => (some .ErrInvalidString, g)

/-- `Float.String`: guard, obtain digits and exponent from
`mpfr_get_str`, combine them with `formatMantissa`. -/
def MFloat.String (f : MFloat) : GoStr × MFloat :=
  let g := doinit f
  let p := mpfr_get_str g.val g.rnd
  (formatMantissa p.1 p.2, g)

/-- One iteration of the `Float.Add` loop: guard the addend, add it into
the receiver (using the receiver's rounding mode), record its state. -/
def addStep (acc : MFloat × List MFloat) (x : MFloat) : MFloat × List MFloat :=
  let x := doinit x
  (withVal acc.1 (engAdd acc.1.val x.val acc.1.rnd), acc.2 ++ [x])

/-- One iteration of the `Float.Sub` loop. -/
def subStep (acc : MFloat × List MFloat) (x : MFloat) : MFloat × List MFloat :=
  let x := doinit x
  (withVal acc.1 (engSub acc.1.val x.val acc.1.rnd), acc.2 ++ [x])

/-- One iteration of the `Float.Mul` loop. -/
def mulStep (acc : MFloat × List MFloat) (x : MFloat) : MFloat × List MFloat :=
  let x := doinit x
  (withVal acc.1 (engMul acc.1.val x.val acc.1.rnd), acc.2 ++ [x])

/-- One iteration of the `Float.Div` loop. -/
def divStep (acc : MFloat × List MFloat) (x : MFloat) : MFloat × List MFloat :=
  let x := doinit x
  (withVal acc.1 (engDiv acc.1.val x.val acc.1.rnd), acc.2 ++ [x])

/-- `Float.Add` (variadic): panic on zero arguments, else guard the
receiver and fold the addends left to right, guarding each one.  The
result is the final receiver state together with the post-call states
of the operands (aliasing between distinct parameters is not modelled). -/
def MFloat.Add (f : MFloat) (args : List MFloat) : Option Err × MFloat × List MFloat :=
  match args with
  | [] => (some (.panicked .addNoArgs), f, args)
  | _ =>
    let r := args.foldl addStep (doinit f, ([] : List MFloat))
    (none, r.1, r.2)

/-- `Float.Sub` (variadic), as `Float.Add`. -/
def MFloat.Sub (f : MFloat) (args : List MFloat) : Option Err × MFloat × List MFloat :=
  match args with
  | [] => (some (.panicked .subNoArgs), f, args)
  | _ =>
    let r := args.foldl subStep (doinit f, ([] : List MFloat))
    (none, r.1, r.2)

/-- `Float.Mul` (variadic), as `Float.Add`. -/
def MFloat.Mul (f : MFloat) (args : List MFloat) : Option Err × MFloat × List MFloat :=
  match args with
  | [] => (some (.panicked .mulNoArgs), f, args)
  | _ =>
    let r := args.foldl mulStep (doinit f, ([] : List MFloat))
    (none, r.1, r.2)

/-- `Float.Div` (variadic), as `Float.Add`; a zero divisor is left to
the engine's IEEE-style rules (no panic). -/
def MFloat.Div (f : MFloat) (args : List MFloat) : Option Err × MFloat × List MFloat :=
  match args with
  | [] => (some (.panicked .divNoArgs), f, args)
  | _ =>
    let r := args.foldl divStep (doinit f, ([] : List MFloat))
    (none, r.1, r.2)

/-- `Float.Quo`: guard all three, panic if the divisor is exactly zero
(checked before the engine division), else store `x / y` in the
receiver.  Returns the outcome together with the final states of the
receiver and both operands (observable after a recovered panic). -/
def MFloat.Quo (f x y : MFloat) : Option Err × MFloat × MFloat × MFloat :=
  let x := doinit x
  let y := doinit y
  let f := doinit f
  if engZeroP y.val then (some (.panicked .quoDivByZero), f, x, y)
  else (none, withVal f (engDiv x.val y.val f.rnd), x, y)

/-- `Float.RootUI`: guard, panic on degree zero before any engine call;
otherwise the engine root is written into the receiver and only then is
the NaN check performed (a NaN result panics after the receiver has
already been overwritten). -/
def MFloat.RootUI (f x : MFloat) (k : ℕ) : Option Err × MFloat × MFloat :=
  let x := doinit x
  let f := doinit f
  if k = 0 then (some (.panicked .rootDegreeZero), f, x)
  else
    let f := withVal f (mpfr_rootn_ui x.val k f.rnd)
    if f.val = .nan then (some (.panicked .rootResultNaN), f, x)
    else (none, f, x)

/-- Result of a free-function form: the outcome, the returned
accumulator, and the post-call states of the operands `x` and `y`
(in Go the returned pointer may alias `x`). -/
structure FreeRes where
  err : Option Err
  ret : MFloat
  x : MFloat
  y : MFloat
deriving DecidableEq

/-- Free `Add(x, y, rnd)`: `x.SetRoundMode(rnd); return x.Add(y)` — the
returned accumulator is the mutated `x` itself. -/
def Add (x y : MFloat) (rnd : Rnd) : FreeRes :=
  let x := SetRoundMode x rnd
  match MFloat.Add x [y] with
  | (e, f, ys) => ⟨e, f, f, ys.headD y⟩

/-- Free `Sub(x, y, rnd)`, as free `Add`. -/
def Sub (x y : MFloat) (rnd : Rnd) : FreeRes :=
  let x := SetRoundMode x rnd
  match MFloat.Sub x [y] with
  | (e, f, ys) => ⟨e, f, f, ys.headD y⟩

/-- Free `Mul(x, y, rnd)`, as free `Add`. -/
def Mul (x y : MFloat) (rnd : Rnd) : FreeRes :=
  let x := SetRoundMode x rnd
  match MFloat.Mul x [y] with
  | (e, f, ys) => ⟨e, f, f, ys.headD y⟩

/-- Free `Div(x, y, rnd)`, as free `Add`. -/
def Div (x y : MFloat) (rnd : Rnd) : FreeRes :=
  let x := SetRoundMode x rnd
  match MFloat.Div x [y] with
  | (e, f, ys) => ⟨e, f, f, ys.headD y⟩

/-- Free `Quo(x, y, rnd)`: constructs a fresh zero accumulator, sets its
rounding mode, and delegates to the instance form. -/
def Quo (x y : MFloat) (rnd : Rnd) : FreeRes :=
  let f := SetRoundMode NewFloat rnd
  match MFloat.Quo f x y with
  | (e, g, x', y') => ⟨e, g, x', y'⟩

/-- `Float.Int64`: consuming conversion.  No `doinit` guard is present
in the source: the native `mpfr_get_si` runs directly against the
handle, which is undefined behaviour when `init` is false; afterwards
the deferred `Clear` releases the handle. -/
def MFloat.Int64 (f : MFloat) : Except Err (ℤ × MFloat) :=
  if f.init then .ok (engGetSi f.val f.rnd, Clear f) else .error .uninitRead

/-- `Float.Uint64`: consuming conversion, no guard (as `Int64`). -/
def MFloat.Uint64 (f : MFloat) : Except Err (ℕ × MFloat) :=
  if f.init then .ok (engGetUi f.val f.rnd, Clear f) else .error .uninitRead

/-- `Float.Float64`: consuming conversion, no guard (as `Int64`); the
rounding of the exact value to a float64 is abstracted. -/
def MFloat.Float64 (f : MFloat) : Except Err (MpfrVal × MFloat) :=
  if f.init then .ok (f.val, Clear f) else .error .uninitRead

/-- `Float.SetBigInt`: guard; a nil argument sets (positive) zero;
otherwise the big integer's decimal text is parsed through the engine,
panicking if the engine rejects it. -/
def SetBigInt (f : MFloat) (value : Option ℤ) : Option Err × MFloat :=
  let g := doinit f
  match value with
  | none => (none, withVal g (.num 0))
  | some v =>
    match mpfr_set_str (intText v) 10 g.rnd with
    | some w => (none, withVal g w)
    | none => (some (.panicked .setBigIntParse), g)

/-- `FromBigInt`: fresh float, then as `SetBigInt` (with its own panic). -/
def FromBigInt (value : Option ℤ) : Option Err × MFloat :=
  let f := NewFloat
  match value with
  | none => (none, withVal f (.num 0))
  | some v =>
    match mpfr_set_str (intText v) 10 f.rnd with
    | some w => (none, withVal f w)
    | none => (some (.panicked .fromBigIntParse), f)

/-- `Float.SetInt64`: direct `mpfr_set_si` when the value lies in the
signed 32-bit range (`math.MinInt32 ≤ v ≤ math.MaxInt32`), otherwise
through `big.Int` decimal text via `SetBigInt`. -/
def SetInt64 (f : MFloat) (value : ℤ) : Option Err × MFloat :=
  let g := doinit f
  if -(2 ^ 31) ≤ value ∧ value ≤ 2 ^ 31 - 1 then
    (none, withVal g (engSetSi value g.rnd))
  else SetBigInt g (some value)

/-- `Float.SetUint64`: direct `mpfr_set_ui` when `v ≤ math.MaxUint32`,
otherwise through `big.Int` decimal text via `SetBigInt`. -/
def SetUint64 (f : MFloat) (value : ℕ) : Option Err × MFloat :=
  let g := doinit f
  if value ≤ 2 ^ 32 - 1 then
    (none, withVal g (engSetSi value g.rnd))
  else SetBigInt g (some (value : ℤ))

/-- `FromInt64`: fresh float, then the same 32-bit dispatch; the slow
path returns `FromBigInt`'s float (the fresh one is discarded). -/
def FromInt64 (value : ℤ) : Option Err × MFloat :=
  let f := NewFloat
  if -(2 ^ 31) ≤ value ∧ value ≤ 2 ^ 31 - 1 then
    (none, withVal f (engSetSi value f.rnd))
  else FromBigInt (some value)

/-- `FromUint64`: fresh float, dispatch at `math.MaxUint32`. -/
def FromUint64 (value : ℕ) : Option Err × MFloat :=
  let f := NewFloat
  if value ≤ 2 ^ 32 - 1 then
    (none, withVal f (engSetSi value f.rnd))
  else FromBigInt (some (value : ℤ))

/-- `Float.SetPrec`: despite its doc comment ("clears the content"), the
source formats the current value to decimal text, changes the native
precision (`mpfr_set_prec` leaves the handle NaN), and re-parses the
text back into the handle, ignoring the parse error. -/
def SetPrec (f : MFloat) (p : ℕ) : MFloat :=
  let g := doinit f
  let s := (MFloat.String g).1
  let g2 := withVal (withPrec g p) .nan
  (SetString g2 s 10).2

/-! ### Digit-string lemmas -/

attribute [local semireducible] Rat.add Rat.sub Rat.mul Rat.inv Rat.ofScientific

theorem digitsVal_append (ds es : GoStr) :
    digitsVal (ds ++ es) = digitsVal ds * 10 ^ es.length + digitsVal es := by
  induction ds with
  | nil => simp [digitsVal]
  | cons c cs ih =>
    show (c.toNat - 48) * 10 ^ (cs ++ es).length + digitsVal (cs ++ es)
      = ((c.toNat - 48) * 10 ^ cs.length + digitsVal cs) * 10 ^ es.length + digitsVal es
    rw [ih, List.length_append]
    ring

theorem zeros_all_digits (n : ℕ) : ∀ c ∈ zeros n, c.isDigit = true := by
  intro c hc
  rw [zeros, List.mem_replicate] at hc
  rw [hc.2]
  decide

theorem digitsVal_zeros (n : ℕ) : digitsVal (zeros n) = 0 := by
  induction n with
  | zero => rfl
  | succ n ih =>
    show digitsVal ('0' :: zeros n) = 0
    simp [digitsVal, ih]

theorem digitChar_isDigit : ∀ d < 10, (digitChar d).isDigit = true := by decide

theorem digitChar_toNat : ∀ d < 10, (digitChar d).toNat - 48 = d := by decide

theorem natDigitsF_spec :
    ∀ fuel n, n ≤ fuel →
      digitsVal (natDigitsF fuel n) = n
      ∧ (∀ c ∈ natDigitsF fuel n, c.isDigit = true)
      ∧ (n ≠ 0 → natDigitsF fuel n ≠ []) := by
  intro fuel
  induction fuel with
  | zero =>
    intro n hn
    have h0 : n = 0 := Nat.le_zero.mp hn
    subst h0
    refine ⟨rfl, ?_, fun h => absurd rfl h⟩
    intro c hc
    simp [natDigitsF] at hc
  | succ fuel ih =>
    intro n hn
    by_cases h0 : n = 0
    · subst h0
      refine ⟨rfl, ?_, fun h => absurd rfl h⟩
      intro c hc
      simp [natDigitsF] at hc
    · have hlt : n / 10 < n := Nat.div_lt_self (Nat.pos_of_ne_zero h0) (by norm_num)
      have hdiv : n / 10 ≤ fuel := by omega
      obtain ⟨ih1, ih2, _⟩ := ih (n / 10) hdiv
      have hmod : n % 10 < 10 := Nat.mod_lt _ (by norm_num)
      have hstep : natDigitsF (fuel + 1) n
          = natDigitsF fuel (n / 10) ++ [digitChar (n % 10)] := by
        simp [natDigitsF, h0]
      refine ⟨?_, ?_, ?_⟩
      · rw [hstep, digitsVal_append, ih1]
        simp [digitsVal, digitChar_toNat _ hmod]
        omega
      · intro c hc
        rw [hstep, List.mem_append] at hc
        rcases hc with hc | hc
        · exact ih2 c hc
        · simp at hc
          rw [hc]
          exact digitChar_isDigit _ hmod
      · intro _
        rw [hstep]
        simp

theorem natDigits_val (n : ℕ) : digitsVal (natDigits n) = n :=
  (natDigitsF_spec n n le_rfl).1

theorem natDigits_all_digits (n : ℕ) : ∀ c ∈ natDigits n, c.isDigit = true :=
  (natDigitsF_spec n n le_rfl).2.1

theorem natDigits_ne_nil (n : ℕ) (h : n ≠ 0) : natDigits n ≠ [] :=
  (natDigitsF_spec n n le_rfl).2.2 h

theorem natDigits0_val (n : ℕ) : digitsVal (natDigits0 n) = n := by
  by_cases h : n = 0
  · subst h; rfl
  · rw [natDigits0, if_neg h]; exact natDigits_val n

theorem natDigits0_all_digits (n : ℕ) : ∀ c ∈ natDigits0 n, c.isDigit = true := by
  by_cases h : n = 0
  · subst h; intro c hc; simp [natDigits0] at hc; rw [hc]; decide
  · rw [natDigits0, if_neg h]; exact natDigits_all_digits n

theorem natDigits0_ne_nil (n : ℕ) : natDigits0 n ≠ [] := by
  by_cases h : n = 0
  · subst h; simp [natDigits0]
  · rw [natDigits0, if_neg h]; exact natDigits_ne_nil n h

theorem strip10F_spec :
    ∀ fuel n, n ≤ fuel →
      n = (strip10F fuel n).1 * 10 ^ (strip10F fuel n).2
      ∧ (n ≠ 0 → (strip10F fuel n).1 ≠ 0) := by
  intro fuel
  induction fuel with
  | zero =>
    intro n hn
    have h0 : n = 0 := Nat.le_zero.mp hn
    subst h0
    exact ⟨rfl, fun h => absurd rfl h⟩
  | succ fuel ih =>
    intro n hn
    by_cases hc : n ≠ 0 ∧ n % 10 = 0
    · have hlt : n / 10 < n := Nat.div_lt_self (Nat.pos_of_ne_zero hc.1) (by norm_num)
      have hdiv : n / 10 ≤ fuel := by omega
      obtain ⟨ih1, ih2⟩ := ih (n / 10) hdiv
      have hstep : strip10F (fuel + 1) n
          = ((strip10F fuel (n / 10)).1, (strip10F fuel (n / 10)).2 + 1) := by
        simp [strip10F, hc.1, hc.2]
      have hd10 : n / 10 * 10 = n := Nat.div_mul_cancel (Nat.dvd_of_mod_eq_zero hc.2)
      constructor
      · rw [hstep]
        show n = (strip10F fuel (n / 10)).1 * 10 ^ ((strip10F fuel (n / 10)).2 + 1)
        calc n = n / 10 * 10 := hd10.symm
        _ = (strip10F fuel (n / 10)).1 * 10 ^ (strip10F fuel (n / 10)).2 * 10 := by
              rw [← ih1]
        _ = (strip10F fuel (n / 10)).1 * 10 ^ ((strip10F fuel (n / 10)).2 + 1) := by ring
      · intro _
        rw [hstep]
        have : n / 10 ≠ 0 := by omega
        exact ih2 this
    · have hstep : strip10F (fuel + 1) n = (n, 0) := by
        simp only [strip10F, if_neg hc]
      rw [hstep]
      exact ⟨by simp, fun h => h⟩

theorem strip10_spec (n : ℕ) :
    n = (strip10 n).1 * 10 ^ (strip10 n).2 ∧ (n ≠ 0 → (strip10 n).1 ≠ 0) :=
  strip10F_spec n n le_rfl

/-! ### takeWhile / dropWhile lemmas -/

theorem takeWhile_all_append (p : Char → Bool) (ds l : GoStr)
    (h : ∀ c ∈ ds, p c = true) :
    (ds ++ l).takeWhile p = ds ++ l.takeWhile p := by
  induction ds with
  | nil => simp
  | cons c cs ih =>
    have hc : p c = true := h c (by simp)
    simp only [List.cons_append, List.takeWhile_cons, hc, if_true]
    rw [ih (fun c hc => h c (by simp [hc]))]

theorem dropWhile_all_append (p : Char → Bool) (ds l : GoStr)
    (h : ∀ c ∈ ds, p c = true) :
    (ds ++ l).dropWhile p = l.dropWhile p := by
  induction ds with
  | nil => simp
  | cons c cs ih =>
    have hc : p c = true := h c (by simp)
    simp only [List.cons_append, List.dropWhile_cons, hc, if_true]
    exact ih (fun c hc => h c (by simp [hc]))

theorem takeWhile_all (p : Char → Bool) (l : GoStr) (h : ∀ c ∈ l, p c = true) :
    l.takeWhile p = l := by
  have := takeWhile_all_append p l [] h
  simpa using this

theorem dropWhile_all (p : Char → Bool) (l : GoStr) (h : ∀ c ∈ l, p c = true) :
    l.dropWhile p = [] := by
  have := dropWhile_all_append p l [] h
  simpa using this

/-! ### Parser characterization -/

theorem isDigit_ne_dash {c : Char} (h : c.isDigit = true) : c ≠ '-' := by
  intro hc
  subst hc
  exact absurd h (by decide)

theorem parseDec_digits (ds : GoStr) (hne : ds ≠ []) (h : ∀ c ∈ ds, c.isDigit = true) :
    parseDec ds = some (digitsVal ds : ℚ) := by
  have hhead : ¬ ds.head? = some '-' := by
    cases ds with
    | nil => simp
    | cons c cs =>
      simp only [List.head?_cons, Option.some.injEq]
      exact isDigit_ne_dash (h c (by simp))
  have hps : parseSign ds = (1, ds) := by rw [parseSign, if_neg hhead]
  have ht : ds.takeWhile Char.isDigit = ds := takeWhile_all _ _ h
  have hd : ds.dropWhile Char.isDigit = [] := dropWhile_all _ _ h
  unfold parseDec
  rw [hps]
  unfold parseBody
  rw [ht, hd, if_pos rfl, if_neg hne, one_mul]

theorem parseDec_neg_digits (ds : GoStr) (hne : ds ≠ [])
    (h : ∀ c ∈ ds, c.isDigit = true) :
    parseDec ('-' :: ds) = some (-(digitsVal ds : ℚ)) := by
  have hps : parseSign ('-' :: ds) = (-1, ds) := by
    simp [parseSign]
  have ht : ds.takeWhile Char.isDigit = ds := takeWhile_all _ _ h
  have hd : ds.dropWhile Char.isDigit = [] := dropWhile_all _ _ h
  unfold parseDec
  rw [hps]
  unfold parseBody
  rw [ht, hd, if_pos rfl, if_neg hne, neg_one_mul]

theorem parseDec_int_frac (ip fp : GoStr) (h1 : ∀ c ∈ ip, c.isDigit = true)
    (h2 : ∀ c ∈ fp, c.isDigit = true) (hne : ¬(ip = [] ∧ fp = [])) :
    parseDec (ip ++ '.' :: fp)
      = some ((digitsVal ip : ℚ) + (digitsVal fp : ℚ) / 10 ^ fp.length) := by
  have hdot : ('.' : Char).isDigit = false := by decide
  have hhead : ¬ (ip ++ '.' :: fp).head? = some '-' := by
    cases ip with
    | nil => simp
    | cons c cs =>
      simp only [List.cons_append, List.head?_cons, Option.some.injEq]
      exact isDigit_ne_dash (h1 c (by simp))
  have hps : parseSign (ip ++ '.' :: fp) = (1, ip ++ '.' :: fp) := by
    rw [parseSign, if_neg hhead]
  have ht : (ip ++ '.' :: fp).takeWhile Char.isDigit = ip := by
    rw [takeWhile_all_append _ _ _ h1]
    simp [List.takeWhile_cons, hdot]
  have hd : (ip ++ '.' :: fp).dropWhile Char.isDigit = '.' :: fp := by
    rw [dropWhile_all_append _ _ _ h1]
    simp [List.dropWhile_cons, hdot]
  have ht2 : fp.takeWhile Char.isDigit = fp := takeWhile_all _ _ h2
  have hd2 : fp.dropWhile Char.isDigit = [] := dropWhile_all _ _ h2
  unfold parseDec
  rw [hps]
  unfold parseBody
  rw [ht, hd, if_neg (List.cons_ne_nil _ _), List.head?_cons, if_pos rfl, List.tail_cons]
  unfold parseFrac
  rw [ht2, hd2, if_pos rfl, if_neg hne, one_mul]

/-! ### Round trip through the positional formatter -/

theorem parseDec_formatMantissa (ds : GoStr) (E : Int) (hne : ds ≠ [])
    (h : ∀ c ∈ ds, c.isDigit = true) :
    parseDec (formatMantissa ds E)
      = some ((digitsVal ds : ℚ) * (10 : ℚ) ^ (E - (ds.length : ℤ))) := by
  have hzero : digitsVal ['0'] = 0 := by decide
  by_cases hE0 : 0 ≤ E
  · by_cases hlen : (ds.length : Int) < E
    · -- pad with zeros and append ".0"
      have hfmt : formatMantissa ds E
          = (ds ++ zeros (E - ds.length).toNat) ++ '.' :: '0' :: [] := by
        simp [formatMantissa, hE0, hlen]
      have hip : ∀ c ∈ ds ++ zeros (E - ds.length).toNat, c.isDigit = true := by
        intro c hc
        rcases List.mem_append.mp hc with hc | hc
        · exact h c hc
        · exact zeros_all_digits _ c hc
      have hipne : ¬(ds ++ zeros (E - ds.length).toNat = [] ∧ ('0' :: [] : GoStr) = []) := by
        intro hcon
        exact hne (List.append_eq_nil.mp hcon.1).1
      rw [hfmt]
      have := parseDec_int_frac (ds ++ zeros (E - ds.length).toNat) ('0' :: []) hip
        (by intro c hc; simp at hc; rw [hc]; decide) hipne
      rw [this, hzero]
      congr 1
      have hk : ((E - (ds.length : ℤ)).toNat : ℤ) = E - (ds.length : ℤ) :=
        Int.toNat_of_nonneg (by omega)
      have hzp : (10 : ℚ) ^ (E - (ds.length : ℤ)) = 10 ^ (E - (ds.length : ℤ)).toNat := by
        rw [← zpow_natCast (10 : ℚ) (E - (ds.length : ℤ)).toNat, hk]
      rw [hzp, digitsVal_append, digitsVal_zeros, zeros, List.length_replicate]
      push_cast
      ring
    · -- insert the decimal point inside the digits
      have htle : E.toNat ≤ ds.length := by omega
      have hkE : (E.toNat : ℤ) = E := Int.toNat_of_nonneg hE0
      have hfmt : formatMantissa ds E
          = ds.take E.toNat ++ '.' :: ds.drop E.toNat := by
        simp [formatMantissa, hE0, hlen]
      have h1 : ∀ c ∈ ds.take E.toNat, c.isDigit = true :=
        fun c hc => h c (List.take_subset _ _ hc)
      have h2 : ∀ c ∈ ds.drop E.toNat, c.isDigit = true :=
        fun c hc => h c (List.drop_subset _ _ hc)
      have hne2 : ¬(ds.take E.toNat = [] ∧ ds.drop E.toNat = []) := by
        intro hcon
        apply hne
        have := List.take_append_drop E.toNat ds
        rw [hcon.1, hcon.2] at this
        exact this.symm
      rw [hfmt, parseDec_int_frac _ _ h1 h2 hne2]
      congr 1
      have hdl : (ds.drop E.toNat).length = ds.length - E.toNat := List.length_drop _ _
      have hds : digitsVal ds
          = digitsVal (ds.take E.toNat) * 10 ^ (ds.length - E.toNat)
            + digitsVal (ds.drop E.toNat) := by
        conv_lhs => rw [← List.take_append_drop E.toNat ds]
        rw [digitsVal_append, hdl]
      have hexp : E - (ds.length : ℤ) = -((ds.length - E.toNat : ℕ) : ℤ) := by
        push_cast [htle]
        omega
      rw [hds, hexp, zpow_neg, zpow_natCast, hdl]
      field_simp
  · -- negative exponent: "0." ++ zeros ++ digits
    have hfmt : formatMantissa ds E = '0' :: '.' :: (zeros (-E).toNat ++ ds) := by
      simp [formatMantissa, hE0]
    have h2 : ∀ c ∈ zeros (-E).toNat ++ ds, c.isDigit = true := by
      intro c hc
      rcases List.mem_append.mp hc with hc | hc
      · exact zeros_all_digits _ c hc
      · exact h c hc
    have hne2 : ¬((['0'] : GoStr) = [] ∧ zeros (-E).toNat ++ ds = []) := by
      intro hcon
      cases hcon.1
    have hshape : ('0' : Char) :: '.' :: (zeros (-E).toNat ++ ds)
        = ['0'] ++ '.' :: (zeros (-E).toNat ++ ds) := rfl
    rw [hfmt, hshape, parseDec_int_frac _ _ (by intro c hc; simp at hc; rw [hc]; decide) h2 hne2]
    congr 1
    rw [digitsVal_append, digitsVal_zeros, List.length_append, hzero]
    rw [zeros, List.length_replicate]
    have hexp : E - (ds.length : ℤ) = -(((-E).toNat + ds.length : ℕ) : ℤ) := by
      push_cast
      omega
    rw [hexp, zpow_neg, zpow_natCast]
    push_cast
    ring

/-! ### Integer text and engine string output -/

theorem parseDec_intText (v : ℤ) : parseDec (intText v) = some (v : ℚ) := by
  by_cases hv : v < 0
  · rw [intText, if_pos hv,
      parseDec_neg_digits _ (natDigits0_ne_nil _) (natDigits0_all_digits _), natDigits0_val]
    have habs : ((v.natAbs : ℕ) : ℚ) = -(v : ℚ) := by
      rw [Int.cast_natAbs]
      exact_mod_cast abs_of_neg hv
    rw [habs, neg_neg]
  · rw [intText, if_neg hv,
      parseDec_digits _ (natDigits0_ne_nil _) (natDigits0_all_digits _), natDigits0_val]
    have habs : ((v.natAbs : ℕ) : ℚ) = (v : ℚ) := by
      rw [Int.cast_natAbs]
      exact_mod_cast abs_of_nonneg (not_lt.mp hv)
    rw [habs]

theorem getStr_sound (q : ℚ) (h0 : 0 ≤ q) (hfd : (q.den : ℕ) ∣ 10 ^ q.den) (rnd : Rnd) :
    (mpfr_get_str (.num q) rnd).1 ≠ []
    ∧ (∀ c ∈ (mpfr_get_str (.num q) rnd).1, c.isDigit = true)
    ∧ (digitsVal (mpfr_get_str (.num q) rnd).1 : ℚ)
        * (10 : ℚ) ^ ((mpfr_get_str (.num q) rnd).2
            - ((mpfr_get_str (.num q) rnd).1.length : ℤ)) = q := by
  by_cases hq0 : q = 0
  · subst hq0
    have hgs : mpfr_get_str (.num 0) rnd = (['0'], 0) := by
      simp [mpfr_get_str]
    rw [hgs]
    refine ⟨by simp, ?_, ?_⟩
    · intro c hc
      simp at hc
      rw [hc]
      decide
    · have hz : digitsVal ['0'] = 0 := by decide
      rw [hz]
      simp
  · have hql : ¬ q < 0 := not_lt.mpr h0
    have hgs : mpfr_get_str (.num q) rnd
        = (natDigits (strip10 (q.num.natAbs * 10 ^ q.den / q.den)).1,
            ((natDigits (strip10 (q.num.natAbs * 10 ^ q.den / q.den)).1).length : ℤ)
              + (strip10 (q.num.natAbs * 10 ^ q.den / q.den)).2 - q.den) := by
      simp only [mpfr_get_str]
      rw [if_neg hq0, if_neg hql]
    have hdvd : (q.den : ℕ) ∣ q.num.natAbs * 10 ^ q.den := Dvd.dvd.mul_left hfd _
    have hden0 : ((q.den : ℕ) : ℚ) ≠ 0 := by
      exact_mod_cast q.den_nz
    have hnum : ((q.num.natAbs : ℕ) : ℚ) = (q.num : ℚ) := by
      rw [Int.cast_natAbs]
      exact_mod_cast abs_of_nonneg (Rat.num_nonneg.mpr h0)
    have hqn : (q.num : ℚ) = q * (q.den : ℚ) := by
      have hdd := Rat.num_div_den q
      rw [div_eq_iff hden0] at hdd
      exact hdd
    have hN : ((q.num.natAbs * 10 ^ q.den / q.den : ℕ) : ℚ) = q * 10 ^ q.den := by
      rw [Nat.cast_div hdvd hden0, Nat.cast_mul, Nat.cast_pow, hnum]
      push_cast
      rw [div_eq_iff hden0, hqn]
      ring
    have hNne : q.num.natAbs * 10 ^ q.den / q.den ≠ 0 := by
      intro hz
      rw [hz] at hN
      simp only [Nat.cast_zero] at hN
      have h10 : (0 : ℚ) < 10 ^ q.den := by positivity
      rcases mul_eq_zero.mp hN.symm with h | h
      · exact hq0 h
      · exact absurd h (ne_of_gt h10)
    obtain ⟨hstrip, hMne⟩ := strip10_spec (q.num.natAbs * 10 ^ q.den / q.den)
    have hM := hMne hNne
    rw [hgs]
    refine ⟨natDigits_ne_nil _ hM, natDigits_all_digits _, ?_⟩
    rw [natDigits_val]
    have h10 : (10 : ℚ) ≠ 0 := by norm_num
    have hexp : ((natDigits (strip10 (q.num.natAbs * 10 ^ q.den / q.den)).1).length : ℤ)
        + (strip10 (q.num.natAbs * 10 ^ q.den / q.den)).2 - q.den
        - ((natDigits (strip10 (q.num.natAbs * 10 ^ q.den / q.den)).1).length : ℤ)
        = ((strip10 (q.num.natAbs * 10 ^ q.den / q.den)).2 : ℤ) - (q.den : ℤ) := by
      ring
    rw [hexp, zpow_sub₀ h10, zpow_natCast, zpow_natCast]
    have hNc : ((strip10 (q.num.natAbs * 10 ^ q.den / q.den)).1 : ℚ)
        * 10 ^ (strip10 (q.num.natAbs * 10 ^ q.den / q.den)).2
        = ((q.num.natAbs * 10 ^ q.den / q.den : ℕ) : ℚ) := by
      exact_mod_cast (congrArg (fun n : ℕ => (n : ℚ)) hstrip).symm
    rw [← mul_div_assoc, hNc, hN,
      mul_div_cancel_right₀ _ (by positivity : (10 : ℚ) ^ q.den ≠ 0)]

/-- Round trip: for a non-negative finite value with a finite decimal
expansion, formatting the engine's digit string positionally and
re-parsing recovers the value exactly. -/
theorem mpfr_string_roundtrip (q : ℚ) (h0 : 0 ≤ q) (hfd : (q.den : ℕ) ∣ 10 ^ q.den)
    (rnd : Rnd) :
    parseDec (formatMantissa (mpfr_get_str (.num q) rnd).1 (mpfr_get_str (.num q) rnd).2)
      = some q := by
  obtain ⟨hne, hdig, hval⟩ := getStr_sound q h0 hfd rnd
  rw [parseDec_formatMantissa _ _ hne hdig, hval]

/-! ### Lifecycle helper lemmas -/

theorem doinit_init {f : MFloat} (h : f.init = true) : doinit f = f := by
  simp [doinit, h]

theorem doinit_isInit (f : MFloat) : (doinit f).init = true := by
  by_cases h : f.init <;> simp [doinit, h]

theorem doinit_idem (f : MFloat) : doinit (doinit f) = doinit f :=
  doinit_init (doinit_isInit f)

/-! ### Operation helper lemmas -/

theorem add_single (g y : MFloat) (hg : g.init = true) (hy : y.init = true) :
    MFloat.Add g [y] = (none, withVal g (engAdd g.val y.val g.rnd), [y]) := by
  show (none, withVal (doinit g) (engAdd (doinit g).val (doinit y).val (doinit g).rnd),
      ([] : List MFloat) ++ [doinit y]) = _
  rw [doinit_init hg, doinit_init hy]
  rfl

theorem sub_single (g y : MFloat) (hg : g.init = true) (hy : y.init = true) :
    MFloat.Sub g [y] = (none, withVal g (engSub g.val y.val g.rnd), [y]) := by
  show (none, withVal (doinit g) (engSub (doinit g).val (doinit y).val (doinit g).rnd),
      ([] : List MFloat) ++ [doinit y]) = _
  rw [doinit_init hg, doinit_init hy]
  rfl

theorem mul_single (g y : MFloat) (hg : g.init = true) (hy : y.init = true) :
    MFloat.Mul g [y] = (none, withVal g (engMul g.val y.val g.rnd), [y]) := by
  show (none, withVal (doinit g) (engMul (doinit g).val (doinit y).val (doinit g).rnd),
      ([] : List MFloat) ++ [doinit y]) = _
  rw [doinit_init hg, doinit_init hy]
  rfl

theorem div_single (g y : MFloat) (hg : g.init = true) (hy : y.init = true) :
    MFloat.Div g [y] = (none, withVal g (engDiv g.val y.val g.rnd), [y]) := by
  show (none, withVal (doinit g) (engDiv (doinit g).val (doinit y).val (doinit g).rnd),
      ([] : List MFloat) ++ [doinit y]) = _
  rw [doinit_init hg, doinit_init hy]
  rfl

theorem quo_states (f x y : MFloat) (hx : x.init = true) (hy : y.init = true)
    (hz : engZeroP y.val = false) :
    MFloat.Quo f x y = (none, withVal (doinit f) (engDiv x.val y.val (doinit f).rnd), x, y) := by
  unfold MFloat.Quo
  rw [doinit_init hx, doinit_init hy, if_neg (by rw [hz]; exact Bool.false_ne_true)]

theorem setBigInt_eq (g : MFloat) (v : ℤ) :
    SetBigInt g (some v) = (none, withVal (doinit g) (.num (v : ℚ))) := by
  simp [SetBigInt, mpfr_set_str, parseDec_intText]

theorem fromBigInt_eq (v : ℤ) :
    FromBigInt (some v) = (none, withVal NewFloat (.num (v : ℚ))) := by
  simp [FromBigInt, mpfr_set_str, parseDec_intText]

theorem setInt64_eq (f : MFloat) (v : ℤ) :
    SetInt64 f v = (none, withVal (doinit f) (.num (v : ℚ))) := by
  unfold SetInt64
  by_cases h : -(2 ^ 31) ≤ v ∧ v ≤ 2 ^ 31 - 1
  · rw [if_pos h]
    rfl
  · rw [if_neg h, setBigInt_eq, doinit_idem]

theorem setUint64_eq (f : MFloat) (u : ℕ) :
    SetUint64 f u = (none, withVal (doinit f) (.num (u : ℚ))) := by
  unfold SetUint64
  by_cases h : u ≤ 2 ^ 32 - 1
  · rw [if_pos h]
    show (none, withVal (doinit f) (.num ((u : ℤ) : ℚ))) = _
    norm_num
  · rw [if_neg h, setBigInt_eq, doinit_idem]
    norm_num

theorem fromInt64_eq (v : ℤ) :
    FromInt64 v = (none, withVal NewFloat (.num (v : ℚ))) := by
  unfold FromInt64
  by_cases h : -(2 ^ 31) ≤ v ∧ v ≤ 2 ^ 31 - 1
  · rw [if_pos h]
    rfl
  · rw [if_neg h, fromBigInt_eq]

theorem fromUint64_eq (u : ℕ) :
    FromUint64 u = (none, withVal NewFloat (.num (u : ℚ))) := by
  unfold FromUint64
  by_cases h : u ≤ 2 ^ 32 - 1
  · rw [if_pos h]
    show (none, withVal NewFloat (.num ((u : ℤ) : ℚ))) = _
    norm_num
  · rw [if_neg h, fromBigInt_eq]
    norm_num

/-! ### Claims -/

/-- Claim C1 (code bug): the spec's positional-formatting algorithm strips
the sign before the positional arithmetic and uses the `E ≥ len(digits)`
branch for padding; the code's `Float.String` does neither.  Evaluating
both algorithms at the engine output for the value −25 (digit string
"-25", decimal exponent 2): the code formats it as "-2.5" — the sign
character occupies a digit position, changing the denoted value tenfold —
while the claimed algorithm yields "-25.0"; and at the boundary input
"25" with exponent 2 the code yields "25." where the claim says "25.0". -/
theorem c1_string_formatter_eval :
    formatMantissa ("-25".toList) 2 = "-2.5".toList
    ∧ specFormat ("-25".toList) 2 = "-25.0".toList
    ∧ formatMantissa ("-25".toList) 2 ≠ specFormat ("-25".toList) 2
    ∧ formatMantissa ("25".toList) 2 = "25.".toList
    ∧ specFormat ("25".toList) 2 = "25.0".toList := by
  refine ⟨by decide, by decide, by decide, by decide, by decide⟩

/-- Claim C2 (code bug): the consuming conversions `Int64`, `Uint64` and
`Float64` (and likewise `BigInt`/`BigFloat` in the source) contain no
`doinit` guard, so on a never-initialized or previously cleared value the
native read runs against a handle whose `init` flag is false — modelled
as the `uninitRead` outcome — contradicting the spec's invariant that the
guard runs before every native call. -/
theorem c2_consuming_conversions_bypass_guard :
    MFloat.Int64 mkUninit = .error .uninitRead
    ∧ MFloat.Uint64 mkUninit = .error .uninitRead
    ∧ MFloat.Float64 mkUninit = .error .uninitRead
    ∧ MFloat.Int64 (Clear NewFloat) = .error .uninitRead := by
  refine ⟨by decide, by decide, by decide, by decide⟩

/-- Claim C3, counterexample: the free function `Add(x, y, rnd)` does not
leave `x` unchanged — with `x = 1`, `y = 2`, it returns the mutated `x`
itself, whose value is now 3 and whose rounding mode is now `rnd`. -/
theorem c3_counterexample :
    (Add (mkNum 1) (mkNum 2) Rnd.RoundUp).x ≠ mkNum 1
    ∧ (Add (mkNum 1) (mkNum 2) Rnd.RoundUp).ret.val = .num 3
    ∧ (Add (mkNum 1) (mkNum 2) Rnd.RoundUp).x.rnd = Rnd.RoundUp := by
  refine ⟨by decide, by decide, by decide⟩

/-- Claim C3, amended: the free forms of the variadic methods (`Add`,
`Sub`, `Mul`, `Div`) do not construct a fresh accumulator — they set
`x`'s rounding mode to `rnd` and fold `y` into `x` in place, returning
the mutated `x` (the returned accumulator and the post-call `x` are the
same state); `y` is left unchanged.  Only `Quo` constructs a fresh
zero-initialized accumulator with rounding mode `rnd` and leaves both
`x` and `y` unchanged. -/
theorem c3_free_function_forms (x y : MFloat) (rnd : Rnd)
    (hx : x.init = true) (hy : y.init = true) :
    ((Add x y rnd).err = none
      ∧ (Add x y rnd).ret = (Add x y rnd).x
      ∧ (Add x y rnd).x = withVal (SetRoundMode x rnd) (engAdd x.val y.val rnd)
      ∧ (Add x y rnd).y = y)
    ∧ ((Sub x y rnd).err = none
      ∧ (Sub x y rnd).ret = (Sub x y rnd).x
      ∧ (Sub x y rnd).x = withVal (SetRoundMode x rnd) (engSub x.val y.val rnd)
      ∧ (Sub x y rnd).y = y)
    ∧ ((Mul x y rnd).err = none
      ∧ (Mul x y rnd).ret = (Mul x y rnd).x
      ∧ (Mul x y rnd).x = withVal (SetRoundMode x rnd) (engMul x.val y.val rnd)
      ∧ (Mul x y rnd).y = y)
    ∧ ((Div x y rnd).err = none
      ∧ (Div x y rnd).ret = (Div x y rnd).x
      ∧ (Div x y rnd).x = withVal (SetRoundMode x rnd) (engDiv x.val y.val rnd)
      ∧ (Div x y rnd).y = y)
    ∧ (engZeroP y.val = false →
        (Quo x y rnd).err = none
        ∧ (Quo x y rnd).x = x
        ∧ (Quo x y rnd).y = y
        ∧ (Quo x y rnd).ret
            = withVal (SetRoundMode NewFloat rnd) (engDiv x.val y.val rnd)) := by
  have hxr : (SetRoundMode x rnd).init = true := hx
  refine ⟨?_, ?_, ?_, ?_, ?_⟩
  · rw [Add, add_single _ _ hxr hy]
    exact ⟨rfl, rfl, rfl, rfl⟩
  · rw [Sub, sub_single _ _ hxr hy]
    exact ⟨rfl, rfl, rfl, rfl⟩
  · rw [Mul, mul_single _ _ hxr hy]
    exact ⟨rfl, rfl, rfl, rfl⟩
  · rw [Div, div_single _ _ hxr hy]
    exact ⟨rfl, rfl, rfl, rfl⟩
  · intro hz
    have hq := quo_states (SetRoundMode NewFloat rnd) x y hx hy hz
    rw [Quo, hq, doinit_init (show (SetRoundMode NewFloat rnd).init = true from rfl)]
    exact ⟨rfl, rfl, rfl, rfl⟩

/-- Claim C3, witness: the amended statement at `x = 6`, `y = 3`,
rounding mode `RoundDown`. -/
theorem c3_free_function_forms_witness :
    (Add (mkNum 6) (mkNum 3) Rnd.RoundDown).y = mkNum 3
    ∧ (Quo (mkNum 6) (mkNum 3) Rnd.RoundDown).ret
        = withVal (SetRoundMode NewFloat Rnd.RoundDown)
            (engDiv (mkNum 6).val (mkNum 3).val Rnd.RoundDown) := by
  obtain ⟨hadd, _, _, _, hquo⟩ :=
    c3_free_function_forms (mkNum 6) (mkNum 3) Rnd.RoundDown (by decide) (by decide)
  exact ⟨hadd.2.2.2, (hquo (by decide)).2.2.2⟩

/-- Claim C4, counterexample: after `Clear`, the consuming conversion
`Int64` does not re-initialize — it reads the released handle (undefined
behaviour, modelled as `uninitRead`) — and the accessor `GetFloat64`
re-initializes to MPFR's init default NaN, not to a fresh zero. -/
theorem c4_counterexample :
    MFloat.Int64 (Clear NewFloat) = .error .uninitRead
    ∧ (GetFloat64 (Clear NewFloat)).1 ≠ .num 0
    ∧ (GetFloat64 (Clear NewFloat)).1 = .nan := by
  refine ⟨by decide, by decide, by decide⟩

/-- Claim C4, amended: `Clear` is idempotent (clearing twice equals
clearing once), and after `Clear` any operation that runs the `doinit`
guard re-initializes the value — to MPFR's init default NaN rather than
to zero — instead of crashing; the consuming conversions (`Int64` etc.),
which skip the guard, instead read the released handle. -/
theorem c4_clear_idempotent_and_reinit (f : MFloat) :
    Clear (Clear f) = Clear f
    ∧ (GetFloat64 (Clear f)).1 = .nan
    ∧ (doinit (Clear f)).init = true
    ∧ MFloat.Int64 (Clear f) = .error .uninitRead := by
  cases hf : f.init with
  | false =>
    have hc : Clear f = f := by rw [Clear, if_neg (by rw [hf]; exact Bool.false_ne_true)]
    rw [hc]
    refine ⟨hc, ?_, doinit_isInit f, ?_⟩
    · show (doinit f).val = .nan
      rw [doinit, if_neg (by rw [hf]; exact Bool.false_ne_true)]
    · rw [MFloat.Int64, if_neg (by rw [hf]; exact Bool.false_ne_true)]
  | true =>
    have hc : Clear f = ⟨.nan, false, f.rnd, f.prec⟩ := by rw [Clear, if_pos hf]
    rw [hc]
    refine ⟨rfl, rfl, rfl, rfl⟩

/-- Claim C5, counterexample: `RootUI` computing the even-degree root of
a negative base panics only after the engine result has been committed,
so when the failure surfaces the receiver no longer holds its prior
contents (here 7) — it holds NaN. -/
theorem c5_counterexample :
    (MFloat.RootUI (mkNum 7) (mkNum (-32)) 2).1 = some (.panicked .rootResultNaN)
    ∧ (MFloat.RootUI (mkNum 7) (mkNum (-32)) 2).2.1.val = .nan
    ∧ (MFloat.RootUI (mkNum 7) (mkNum (-32)) 2).2.1.val ≠ (mkNum 7).val := by
  refine ⟨by decide, by decide, by decide⟩

/-- Claim C5, amended: the `k = 0` panic of `RootUI` and the
zero-divisor panic of `Quo` fire before any engine call, leaving the
receiver's prior contents intact (only lazy initialization has run); but
for an even-degree root of a negative base the NaN result has already
been written into the receiver when the panic surfaces. -/
theorem c5_failfast_receiver_state (f x y z : MFloat) (k : ℕ) (q : ℚ) :
    (k = 0 → MFloat.RootUI f x k = (some (.panicked .rootDegreeZero), doinit f, doinit x))
    ∧ (engZeroP (doinit z).val = true →
        MFloat.Quo f y z = (some (.panicked .quoDivByZero), doinit f, doinit y, doinit z))
    ∧ (x.init = true → x.val = .num q → q < 0 → k ≠ 0 → k % 2 = 0 →
        (MFloat.RootUI f x k).1 = some (.panicked .rootResultNaN)
        ∧ (MFloat.RootUI f x k).2.1 = withVal (doinit f) .nan) := by
  refine ⟨?_, ?_, ?_⟩
  · intro hk
    subst hk
    rw [MFloat.RootUI, if_pos rfl]
  · intro hz
    rw [MFloat.Quo, if_pos hz]
  · intro hxi hxv hq hk hke
    have hroot : mpfr_rootn_ui (doinit x).val k (doinit f).rnd = .nan := by
      rw [doinit_init hxi, hxv, mpfr_rootn_ui]
      simp [hq, hke]
    have hred : MFloat.RootUI f x k
        = (some (.panicked .rootResultNaN), withVal (doinit f) .nan, doinit x) := by
      rw [MFloat.RootUI, if_neg hk, hroot]
      exact rfl
    rw [hred]
    exact ⟨rfl, rfl⟩

/-- Claim C5, witness: the amended statement at concrete inputs — degree
zero, a zero divisor, and the even root of −32 with receiver 7. -/
theorem c5_failfast_receiver_state_witness :
    MFloat.RootUI (mkNum 7) (mkNum 32) 0 = (some (.panicked .rootDegreeZero), mkNum 7, mkNum 32)
    ∧ MFloat.Quo (mkNum 7) (mkNum 10) (mkNum 0)
        = (some (.panicked .quoDivByZero), mkNum 7, mkNum 10, mkNum 0)
    ∧ (MFloat.RootUI (mkNum 7) (mkNum (-32)) 2).2.1 = withVal (doinit (mkNum 7)) .nan := by
  refine ⟨?_, ?_, ?_⟩
  · have h := (c5_failfast_receiver_state (mkNum 7) (mkNum 32) (mkNum 10) (mkNum 0) 0 0).1 rfl
    rw [h]
    decide
  · have h := (c5_failfast_receiver_state (mkNum 7) (mkNum (-32)) (mkNum 10) (mkNum 0) 1 0).2.1
      (by decide)
    rw [h]
    decide
  · exact ((c5_failfast_receiver_state (mkNum 7) (mkNum (-32)) (mkNum 10) (mkNum 0) 2
      (-32)).2.2 (by decide) (by decide) (by decide) (by decide) (by decide)).2

/-- Claim C6: the integer-quotient-style `Quo` panics exactly when the
divisor is exactly zero (checked after the divisor's lazy
initialization), while the IEEE-style `Div` with an exactly-zero divisor
does not fail and stores an infinity in the receiver whenever the
dividend is a nonzero finite value. -/
theorem c6_division_zero_policy (f x y g z : MFloat) (a : ℚ) :
    ((MFloat.Quo f x y).1 ≠ none ↔ engZeroP (doinit y).val = true)
    ∧ (g.init = true → g.val = .num a → a ≠ 0 → z.init = true → z.val = .num 0 →
        (MFloat.Div g [z]).1 = none
        ∧ ((MFloat.Div g [z]).2.1.val = .posInf ∨ (MFloat.Div g [z]).2.1.val = .negInf)) := by
  have hQ : MFloat.Quo f x y
      = if engZeroP (doinit y).val
          then (some (.panicked .quoDivByZero), doinit f, doinit x, doinit y)
          else (none,
            withVal (doinit f) (engDiv (doinit x).val (doinit y).val (doinit f).rnd),
            doinit x, doinit y) := rfl
  constructor
  · rw [hQ]
    by_cases hz : engZeroP (doinit y).val = true
    · rw [if_pos hz]
      simp [hz]
    · rw [if_neg hz]
      simp [hz]
  · intro hg hgv ha hzi hzv
    rw [div_single g z hg hzi]
    refine ⟨rfl, ?_⟩
    show engDiv g.val z.val g.rnd = .posInf ∨ engDiv g.val z.val g.rnd = .negInf
    rw [hgv, hzv]
    rcases lt_trichotomy a 0 with h | h | h
    · right
      simp [engDiv, ha, h, not_lt.mpr (le_of_lt h)]
    · exact absurd h ha
    · left
      simp [engDiv, ha, h]

/-- Claim C6, witness: `Quo` with dividend 10 and divisor 0 panics;
`Div` of 10 by 0 returns normally with an infinity in the receiver. -/
theorem c6_division_zero_policy_witness :
    (MFloat.Quo NewFloat (mkNum 10) (mkNum 0)).1 ≠ none
    ∧ (MFloat.Div (mkNum 10) [mkNum 0]).1 = none
    ∧ ((MFloat.Div (mkNum 10) [mkNum 0]).2.1.val = .posInf
        ∨ (MFloat.Div (mkNum 10) [mkNum 0]).2.1.val = .negInf) := by
  obtain ⟨hiff, hdiv⟩ :=
    c6_division_zero_policy NewFloat (mkNum 10) (mkNum 0) (mkNum 10) (mkNum 0) 10
  have h := hdiv (by decide) (by decide) (by decide) (by decide) (by decide)
  exact ⟨hiff.mpr (by decide), h.1, h.2⟩

/-- Claim C7: the variadic fold applies the operation sequentially left
to right into the accumulator: `acc.Sub(a, b, c)` computes
`((acc − a) − b) − c` and `acc.Div(a, b)` computes `(acc / a) / b`; and
in general appending one more operand applies exactly one more engine
call to the already-folded receiver. -/
theorem c7_fold_order (f a b c x : MFloat) (l : List MFloat) :
    ((MFloat.Sub f [a, b, c]).2.1.val
      = engSub (engSub (engSub (doinit f).val (doinit a).val (doinit f).rnd)
          (doinit b).val (doinit f).rnd) (doinit c).val (doinit f).rnd)
    ∧ ((MFloat.Div f [a, b]).2.1.val
      = engDiv (engDiv (doinit f).val (doinit a).val (doinit f).rnd)
          (doinit b).val (doinit f).rnd)
    ∧ (l ≠ [] → (MFloat.Sub f (l ++ [x])).2.1
        = withVal ((MFloat.Sub f l).2.1)
            (engSub ((MFloat.Sub f l).2.1.val) (doinit x).val ((MFloat.Sub f l).2.1.rnd))) := by
  refine ⟨rfl, rfl, ?_⟩
  intro hl
  cases l with
  | nil => exact absurd rfl hl
  | cons hh tt =>
    show (((hh :: tt) ++ [x]).foldl subStep (doinit f, ([] : List MFloat))).1 = _
    rw [List.foldl_append]
    rfl

/-- Claim C7, witness: the snoc clause at a concrete instance. -/
theorem c7_fold_order_witness :
    (MFloat.Sub (mkNum 20) ([mkNum 5] ++ [mkNum 3])).2.1
      = withVal ((MFloat.Sub (mkNum 20) [mkNum 5]).2.1)
          (engSub ((MFloat.Sub (mkNum 20) [mkNum 5]).2.1.val) (doinit (mkNum 3)).val
            ((MFloat.Sub (mkNum 20) [mkNum 5]).2.1.rnd)) :=
  (c7_fold_order (mkNum 20) (mkNum 0) (mkNum 0) (mkNum 0) (mkNum 3) [mkNum 5]).2.2
    (by decide)

/-- Claim C8: `SetString` returns the single error value
`ErrInvalidString` exactly when the engine parser reports failure, and
on failure no partial result is committed — the value observable
afterwards is unchanged (only the lazy-initialization guard has run;
for an already-initialized value the state is exactly unchanged). -/
theorem c8_setstring_error_mapping (f : MFloat) (s : GoStr) :
    ((SetString f s 10).1 = some .ErrInvalidString ↔ parseDec s = none)
    ∧ (parseDec s = none → (SetString f s 10).2 = doinit f)
    ∧ (f.init = true → parseDec s = none → (SetString f s 10).2 = f) := by
  cases hp : parseDec s with
  | none =>
    have hval : SetString f s 10 = (some .ErrInvalidString, doinit f) := by
      show (match mpfr_set_str s 10 (doinit f).rnd with
        | some v => (none, withVal (doinit f) v)
        | none => (some GoError.ErrInvalidString, doinit f)) = _
      rw [mpfr_set_str, if_pos rfl, hp]
      exact rfl
    rw [hval]
    exact ⟨by simp, fun _ => rfl, fun hf _ => doinit_init hf⟩
  | some v =>
    have hval : SetString f s 10 = (none, withVal (doinit f) (.num v)) := by
      show (match mpfr_set_str s 10 (doinit f).rnd with
        | some w => (none, withVal (doinit f) w)
        | none => (some GoError.ErrInvalidString, doinit f)) = _
      rw [mpfr_set_str, if_pos rfl, hp]
      exact rfl
    rw [hval]
    refine ⟨by simp, ?_, ?_⟩
    · intro h
      simp at h
    · intro _ h
      simp at h

/-- Claim C8, witness: parsing "not-a-number" fails with
`ErrInvalidString` and leaves the (initialized) value unchanged. -/
theorem c8_setstring_error_mapping_witness :
    (SetString NewFloat ("not-a-number".toList) 10).1 = some .ErrInvalidString
    ∧ (SetString NewFloat ("not-a-number".toList) 10).2 = NewFloat := by
  have h := c8_setstring_error_mapping NewFloat ("not-a-number".toList)
  exact ⟨h.1.mpr (by decide), h.2.2 (by decide) (by decide)⟩

/-- Claim C9: `SetInt64`/`FromInt64` use the direct native conversion
exactly when the value lies in the signed 32-bit range and otherwise go
through the big integer's decimal text and the decimal codec;
`SetUint64`/`FromUint64` dispatch at the unsigned 32-bit bound; in both
paths (and with no error) the resulting value is exactly the input
integer. -/
theorem c9_integer_width_dispatch (f : MFloat) (v : ℤ) (u : ℕ) :
    ((SetInt64 f v).1 = none ∧ (SetInt64 f v).2.val = .num (v : ℚ))
    ∧ ((SetUint64 f u).1 = none ∧ (SetUint64 f u).2.val = .num (u : ℚ))
    ∧ ((FromInt64 v).1 = none ∧ (FromInt64 v).2.val = .num (v : ℚ))
    ∧ ((FromUint64 u).1 = none ∧ (FromUint64 u).2.val = .num (u : ℚ))
    ∧ (¬(-(2 ^ 31) ≤ v ∧ v ≤ 2 ^ 31 - 1) → SetInt64 f v = SetBigInt (doinit f) (some v))
    ∧ ((-(2 ^ 31) ≤ v ∧ v ≤ 2 ^ 31 - 1) →
        (SetInt64 f v).2 = withVal (doinit f) (engSetSi v (doinit f).rnd))
    ∧ (¬(u ≤ 2 ^ 32 - 1) → SetUint64 f u = SetBigInt (doinit f) (some (u : ℤ)))
    ∧ ((u ≤ 2 ^ 32 - 1) →
        (SetUint64 f u).2 = withVal (doinit f) (engSetSi (u : ℤ) (doinit f).rnd)) := by
  refine ⟨?_, ?_, ?_, ?_, ?_, ?_, ?_, ?_⟩
  · rw [setInt64_eq]
    exact ⟨rfl, rfl⟩
  · rw [setUint64_eq]
    exact ⟨rfl, rfl⟩
  · rw [fromInt64_eq]
    exact ⟨rfl, rfl⟩
  · rw [fromUint64_eq]
    exact ⟨rfl, rfl⟩
  · intro h
    show (if -(2 ^ 31) ≤ v ∧ v ≤ 2 ^ 31 - 1 then
        (none, withVal (doinit f) (engSetSi v (doinit f).rnd))
      else SetBigInt (doinit f) (some v)) = SetBigInt (doinit f) (some v)
    rw [if_neg h]
  · intro h
    show (if -(2 ^ 31) ≤ v ∧ v ≤ 2 ^ 31 - 1 then
        (none, withVal (doinit f) (engSetSi v (doinit f).rnd))
      else SetBigInt (doinit f) (some v)).2 = withVal (doinit f) (engSetSi v (doinit f).rnd)
    rw [if_pos h]
  · intro h
    show (if u ≤ 2 ^ 32 - 1 then
        (none, withVal (doinit f) (engSetSi (u : ℤ) (doinit f).rnd))
      else SetBigInt (doinit f) (some (u : ℤ))) = SetBigInt (doinit f) (some (u : ℤ))
    rw [if_neg h]
  · intro h
    show (if u ≤ 2 ^ 32 - 1 then
        (none, withVal (doinit f) (engSetSi (u : ℤ) (doinit f).rnd))
      else SetBigInt (doinit f) (some (u : ℤ))).2 = withVal (doinit f) (engSetSi (u : ℤ) (doinit f).rnd)
    rw [if_pos h]

/-- Claim C9, witness: `2^40` (outside the 32-bit range) goes through
the big-integer text path and still yields exactly `2^40`; `7` (inside
the range) takes the direct native conversion. -/
theorem c9_integer_width_dispatch_witness :
    (SetInt64 NewFloat (2 ^ 40)).2.val = .num ((2 ^ 40 : ℤ) : ℚ)
    ∧ SetInt64 NewFloat (2 ^ 40) = SetBigInt (doinit NewFloat) (some (2 ^ 40))
    ∧ (SetInt64 NewFloat 7).2 = withVal (doinit NewFloat) (engSetSi 7 (doinit NewFloat).rnd)
    ∧ (SetUint64 NewFloat 9).1 = none := by
  obtain ⟨h1, h2, _, _, h5, _, _, _⟩ := c9_integer_width_dispatch NewFloat (2 ^ 40) 9
  obtain ⟨_, _, _, _, _, g6, _, _⟩ := c9_integer_width_dispatch NewFloat 7 9
  exact ⟨h1.2, h5 (by decide), g6 (by decide), h2.1⟩

/-- Claim C10, counterexample: `SetPrec` does not preserve the value for
negative inputs — the sign bug in `Float.String` makes the round-trip
reparse a shifted number: a value of −25 comes back as −2.5. -/
theorem c10_counterexample :
    (SetPrec (mkNum (-25)) 128).val = .num (-(5 / 2) : ℚ)
    ∧ (SetPrec (mkNum (-25)) 128).val ≠ .num (-25 : ℚ) := by
  refine ⟨by decide, by decide⟩

/-- Claim C10, amended: contrary to its own doc comment, `SetPrec` does
not clear the content: it formats the current value to decimal text,
changes the native precision, and re-parses the text, so for every
initialized non-negative value (whose finite decimal expansion the
engine's digit string captures exactly) the numeric value is preserved
exactly and the precision field is updated; negative values are
corrupted by the `String` sign bug. -/
theorem c10_setprec_preserves_value (f : MFloat) (p : ℕ) (q : ℚ)
    (hinit : f.init = true) (hval : f.val = .num q) (h0 : 0 ≤ q)
    (hfd : (q.den : ℕ) ∣ 10 ^ q.den) :
    SetPrec f p = ⟨.num q, true, f.rnd, p⟩ := by
  have hdf : doinit f = f := doinit_init hinit
  have hS : SetPrec f p
      = (SetString (withVal (withPrec f p) .nan)
          (formatMantissa (mpfr_get_str f.val f.rnd).1 (mpfr_get_str f.val f.rnd).2) 10).2 := by
    show (SetString (withVal (withPrec (doinit f) p) .nan)
        (formatMantissa (mpfr_get_str (doinit (doinit f)).val (doinit (doinit f)).rnd).1
          (mpfr_get_str (doinit (doinit f)).val (doinit (doinit f)).rnd).2) 10).2 = _
    rw [doinit_idem, hdf]
  rw [hS, hval]
  have hg2i : (withVal (withPrec f p) MpfrVal.nan).init = true := hinit
  have hparse := mpfr_string_roundtrip q h0 hfd f.rnd
  have hSS : SetString (withVal (withPrec f p) .nan)
      (formatMantissa (mpfr_get_str (.num q) f.rnd).1 (mpfr_get_str (.num q) f.rnd).2) 10
      = (none, withVal (withVal (withPrec f p) .nan) (.num q)) := by
    show (match mpfr_set_str
        (formatMantissa (mpfr_get_str (.num q) f.rnd).1 (mpfr_get_str (.num q) f.rnd).2) 10
        (doinit (withVal (withPrec f p) .nan)).rnd with
      | some v => (none, withVal (doinit (withVal (withPrec f p) .nan)) v)
      | none => (some GoError.ErrInvalidString, doinit (withVal (withPrec f p) .nan))) = _
    rw [doinit_init hg2i, mpfr_set_str, if_pos rfl, hparse]
    exact rfl
  rw [hSS]
  show (⟨.num q, f.init, f.rnd, p⟩ : MFloat) = ⟨.num q, true, f.rnd, p⟩
  rw [hinit]

/-- Claim C10, witness: the amended statement at the value 3.25 and new
precision 128: the value survives the precision change exactly. -/
theorem c10_setprec_preserves_value_witness :
    SetPrec (mkNum (13 / 4)) 128 = ⟨.num (13 / 4), true, Rnd.RoundToNearest, 128⟩ :=
  c10_setprec_preserves_value (mkNum (13 / 4)) 128 (13 / 4)
    (by decide) (by decide) (by decide) (by decide)

end GoMpfr
